import Mathlib

/-!
# Verification of the Context-Bench evaluation engine

Shallow embedding, in Lean 4, of the core of the Context-Bench repository
(byte-interval algebra, line-to-byte mapping, unified-diff parsing,
symbol-name matching, and the metrics engine), together with theorems
settling the specification claims about it.

Python integers are modelled as `Nat`/`Int`; Python floats produced by the
metric ratios are modelled as `Rat` (every ratio the metrics compute is a
quotient of machine integers, so `Rat` captures the intended real value
exactly).  Filesystem access (repository checkouts, `open`) is modelled by
passing file contents / pre-extracted tables explicitly; a file that cannot
be read is an `Option` `none`.
-/

namespace ContextBench

/-! ## Byte-interval algebra (`src/core/intervals.py`)

A `ByteInterval` is an inclusive pair `(start, end)` of byte offsets. -/

abbrev ByteInterval := Nat × Nat

/-- Lexicographic order on pairs, exactly the order Python's `sorted` uses
on 2-tuples of ints. -/
def lexLe (a b : ByteInterval) : Prop :=
  a.1 < b.1 ∨ (a.1 = b.1 ∧ a.2 ≤ b.2)

instance : DecidablePred fun p : ByteInterval × ByteInterval => lexLe p.1 p.2 :=
  fun _ => by unfold lexLe; infer_instance

instance (a b : ByteInterval) : Decidable (lexLe a b) := by
  unfold lexLe; infer_instance

/-- Insertion of one interval into a lexicographically sorted list. -/
def insLex (a : ByteInterval) : List ByteInterval → List ByteInterval
  | [] => [a]
  | b :: t => if lexLe a b then a :: b :: t else b :: insLex a t

/-- Sorting by `(start, end)` lexicographically: the effect of Python's
`sorted(intervals)`.  (`sorted` is a stable sort, but two tuples that
compare equal under the lexicographic order are identical, so every
correct sorting algorithm returns the same list.) -/
def sortLex : List ByteInterval → List ByteInterval
  | [] => []
  | a :: t => insLex a (sortLex t)

/-- The fold of `merge`'s main loop: `last` is `merged[-1]`, the tail is the
remaining sorted input.  `current[0] <= last[1] + 1` folds the current
interval into `last`, otherwise `last` is emitted. -/
def mergeGo (last : ByteInterval) : List ByteInterval → List ByteInterval
  | [] => [last]
  | c :: rest =>
    if c.1 ≤ last.2 + 1 then mergeGo (last.1, max last.2 c.2) rest
    else last :: mergeGo c rest

/-- `merge(intervals)` from `src/core/intervals.py`: sort, then fold
overlapping-or-adjacent intervals. -/
def merge (intervals : List ByteInterval) : List ByteInterval :=
  match sortLex intervals with
  | [] => []
  | a :: t => mergeGo a t

/-- `length(intervals)`: total bytes covered, summed after `merge`. -/
def length (intervals : List ByteInterval) : Nat :=
  ((merge intervals).map (fun iv => iv.2 - iv.1 + 1)).sum

/-- The two-pointer loop of `intersect`, running over already-merged
lists. -/
def intersectGo : List ByteInterval → List ByteInterval → List ByteInterval
  | [], _ => []
  | _, [] => []
  | a :: as', b :: bs =>
    let lo := max a.1 b.1
    let hi := min a.2 b.2
    let rest :=
      if a.2 < b.2 then intersectGo as' (b :: bs)
      else if b.2 < a.2 then intersectGo (a :: as') bs
      else intersectGo as' bs
    if lo ≤ hi then (lo, hi) :: rest else rest

/-- `intersect(a, b)`: intersection of two interval lists. -/
def intersect (a b : List ByteInterval) : List ByteInterval :=
  intersectGo (merge a) (merge b)

/-- `intersect_size(a, b)`: bytes in the intersection. -/
def intersect_size (a b : List ByteInterval) : Nat :=
  length (intersect a b)

/-! ## Metrics: coverage / precision (`src/metrics/compute.py`) -/

/-- `coverage_precision(pred_size, gold_size, inter_size)`.
`cov = inter/gold if gold > 0 else 1.0`; `prec = inter/pred if pred > 0
else 1.0`. -/
def coverage_precision (pred_size gold_size inter_size : ℚ) : ℚ × ℚ :=
  (if gold_size > 0 then inter_size / gold_size else 1,
   if pred_size > 0 then inter_size / pred_size else 1)

/-! ### Properties of `merge` -/

/-- An interval is valid when its start does not exceed its end. -/
def validIv (iv : ByteInterval) : Prop := iv.1 ≤ iv.2

/-- Two intervals are gapped when they are disjoint and non-adjacent:
the second starts at least two bytes after the first ends. -/
def gapped (x y : ByteInterval) : Prop := x.2 + 1 < y.1

/-- A byte offset is covered by a list of intervals. -/
def covered (l : List ByteInterval) (n : Nat) : Prop :=
  ∃ iv ∈ l, iv.1 ≤ n ∧ n ≤ iv.2

/-! ## Line-to-byte mapping (`src/core/fileio.py`)

File contents are modelled as lists of byte values; a file that is missing
or unreadable (the `except (OSError, IOError)` path) is modelled as
`none`. -/

/-- The line-start offset table of `line_to_byte`: offset `0`, then
`i + 1` for every index `i` holding a newline byte (10). -/
def lineOffsets (content : List Nat) : List Nat :=
  0 :: content.enum.filterMap (fun p => if p.2 = 10 then some (p.1 + 1) else none)

/-- `line_to_byte` on the content of a readable file.  Line numbers are
Python ints, clamped like the source: `start_line = max(1, start_line)`,
`end_line = max(start_line, end_line)`. -/
def line_to_byte (content : List Nat) (start_line end_line : Int) : Option (Nat × Nat) :=
  if content = [] then some (0, 0)
  else
    let offsets := lineOffsets content
    let s := max 1 start_line
    let e := max s end_line
    let start_idx := (s - 1).toNat
    let end_idx := (e - 1).toNat
    if offsets.length ≤ start_idx then none
    else
      let start_byte := offsets.getD start_idx 0
      let end_byte :=
        if end_idx + 1 < offsets.length then offsets.getD (end_idx + 1) 0 - 1
        else content.length - 1
      some (start_byte, max start_byte end_byte)

/-- `line_to_byte` including the file read: a missing or unreadable file
is `none`. -/
def line_to_byte_file (file : Option (List Nat)) (start_line end_line : Int) :
    Option (Nat × Nat) :=
  match file with
  | none => none
  | some content => line_to_byte content start_line end_line

/-- The bytes of the file `"abc\nde\nf"` from the spec's round-trip
example. -/
def abcFile : List Nat := [97, 98, 99, 10, 100, 101, 10, 102]

/-! ## Unified-diff parsing (`src/parsers/diff.py`)

`_parse_hunks` walks the `'\n'`-split lines of the patch: `+++ b/<path>`
lines (matched by the regex `^\+\+\+\s+b/(.+)`) set the current file, and
`@@` lines whose header matches
`^@@\s+-(\d+)(?:,(\d+))?\s+\+(\d+)(?:,(\d+))?\s+@@` start an inner scan of
the hunk body that ends at the next line starting with `@@`, `diff ` or
`---`. -/

/-- Python `str.startswith(p)`, on the underlying character lists. -/
def strStarts (p l : String) : Bool := p.data.isPrefixOf l.data

/-- Python regex `\s` (newlines cannot occur inside a split line). -/
def pyWs (c : Char) : Bool :=
  c == ' ' || c == '\t' || c == '\r' || c == '\x0b' || c == '\x0c'

/-- Consume an exact literal character sequence. -/
def eatLit : List Char → List Char → Option (List Char)
  | [], cs => some cs
  | _ :: _, [] => none
  | p :: ps, c :: cs => if c = p then eatLit ps cs else none

/-- Consume `\s+`: at least one whitespace character, maximally. -/
def eatWs : List Char → Option (List Char)
  | [] => none
  | c :: cs => if pyWs c then some (cs.dropWhile pyWs) else none

/-- Consume `\d+`: at least one digit, maximally, returning its value. -/
def eatDigits (cs : List Char) : Option (Nat × List Char) :=
  let ds := cs.takeWhile Char.isDigit
  if ds.isEmpty then none
  else some (ds.foldl (fun n c => n * 10 + (c.toNat - 48)) 0, cs.dropWhile Char.isDigit)

/-- Consume the optional `(?:,(\d+))?` count group.  When a comma is not
followed by a digit the whole header match fails (the regex backtracks
into `\s+`, which can match neither the comma nor a digit). -/
def eatCount (cs : List Char) : Option (List Char) :=
  match cs with
  | ',' :: rest => (eatDigits rest).map Prod.snd
  | _ => some cs

/-- The hunk-header regex `^@@\s+-(\d+)(?:,(\d+))?\s+\+(\d+)(?:,(\d+))?\s+@@`,
returning `(old_start, new_start)` (groups 1 and 3). -/
def parseHunkHeader (line : String) : Option (Nat × Nat) := do
  let cs ← eatLit ['@', '@'] line.data
  let cs ← eatWs cs
  let cs ← eatLit ['-'] cs
  let (oldStart, cs) ← eatDigits cs
  let cs ← eatCount cs
  let cs ← eatWs cs
  let cs ← eatLit ['+'] cs
  let (newStart, cs) ← eatDigits cs
  let cs ← eatCount cs
  let cs ← eatWs cs
  let _ ← eatLit ['@', '@'] cs
  pure (oldStart, newStart)

/-- The file-header regex `^\+\+\+\s+b/(.+)`: group 1 is the rest of the
line (at least one character). -/
def parsePlusFileHeader (line : String) : Option String := do
  let cs ← eatLit ['+', '+', '+'] line.data
  let cs ← eatWs cs
  let cs ← eatLit ['b', '/'] cs
  if cs.isEmpty then none else some (String.mk cs)

/-- The inner `while` loop's exit condition:
`lines[j].startswith(('@@', 'diff ', '---'))`. -/
def isHunkEnd (l : String) : Bool :=
  strStarts "@@" l || strStarts "diff " l || strStarts "---" l

/-- A `+` line that is not a `+++` file header. -/
def isPlusLine (l : String) : Bool := strStarts "+" l && !(strStarts "+++" l)

/-- A `-` line that is not a `---` file header. -/
def isMinusLine (l : String) : Bool := strStarts "-" l && !(strStarts "---" l)

/-- A context line. -/
def isCtxLine (l : String) : Bool := strStarts " " l

/-- The inner hunk scan, shared by the two textually mirrored branches of
`_parse_hunks`: `isRun` lines extend the current run and advance the line
counter, `isSkip` lines are ignored, context lines close the run and
advance the counter, any other line does nothing, and a hunk/file boundary
(or the end of the patch) closes the run and stops. -/
def scanRuns (isRun isSkip : String → Bool) :
    List String → Nat → Option Nat → List (Nat × Nat)
  | [], counter, some s => [(s, counter - 1)]
  | [], _, none => []
  | l :: rest, counter, rs =>
    if isHunkEnd l then
      match rs with
      | some s => [(s, counter - 1)]
      | none => []
    else if isRun l then
      match rs with
      | some s => scanRuns isRun isSkip rest (counter + 1) (some s)
      | none => scanRuns isRun isSkip rest (counter + 1) (some counter)
    else if isSkip l then
      scanRuns isRun isSkip rest counter rs
    else if isCtxLine l then
      match rs with
      | some s => (s, counter - 1) :: scanRuns isRun isSkip rest (counter + 1) none
      | none => scanRuns isRun isSkip rest (counter + 1) none
    else
      scanRuns isRun isSkip rest counter rs

/-- The outer loop of `_parse_hunks`, emitting `(file, (start, end))`
records in order.  The outer loop keeps iterating over lines already
consumed by an inner scan, so a `+++` header or `@@` header inside a
scanned region is still seen here, exactly as in the source. -/
def parseHunksGo (deletionsOnly : Bool) :
    Option String → List String → List (String × (Nat × Nat))
  | _, [] => []
  | cf, l :: rest =>
    if strStarts "+++" l then
      match parsePlusFileHeader l with
      | some f => parseHunksGo deletionsOnly (some f) rest
      | none => parseHunksGo deletionsOnly cf rest
    else if strStarts "@@" l then
      match cf with
      | some f =>
        match parseHunkHeader l with
        | some (oldStart, newStart) =>
          (if deletionsOnly then
              (scanRuns isMinusLine isPlusLine rest oldStart none).map (fun r => (f, r))
            else
              (scanRuns isPlusLine isMinusLine rest newStart none).map (fun r => (f, r)))
            ++ parseHunksGo deletionsOnly cf rest
        | none => parseHunksGo deletionsOnly cf rest
      | none => parseHunksGo deletionsOnly cf rest
    else parseHunksGo deletionsOnly cf rest

/-- `_merge_line_intervals` of `src/parsers/diff.py` is character-for-
character the same sort-and-fold algorithm as `merge` in
`src/core/intervals.py`, applied to line ranges instead of byte ranges. -/
abbrev mergeLineIntervals : List (Nat × Nat) → List (Nat × Nat) := merge

/-- Python `diff_text.split('\n')`: split the character list at every
newline (an empty string yields one empty line, a trailing newline an
empty final line). -/
def splitChar (c : Char) : List Char → List (List Char)
  | [] => [[]]
  | d :: rest =>
    match splitChar c rest with
    | [] => [[]]
    | h :: t => if d = c then [] :: h :: t else (d :: h) :: t

/-- The patch text as a list of lines. -/
def splitLines (s : String) : List String :=
  (splitChar (Char.ofNat 10) s.data).map String.mk

/-- `parse_diff_lines(diff_text, deletions_only)`: per-file merged line
ranges, keyed in first-emission order. -/
def parse_diff_lines (diffText : String) (deletionsOnly : Bool) :
    List (String × List (Nat × Nat)) :=
  let hunks := parseHunksGo deletionsOnly none (splitLines diffText)
  ((hunks.map Prod.fst).eraseDups).filterMap (fun f =>
    let ivs := hunks.filterMap (fun p => if p.1 = f then some p.2 else none)
    if ivs.isEmpty then none else some (f, mergeLineIntervals ivs))

/-! ### Reference definition of a hunk scan, from the spec's words

The spec describes both extraction modes as tracking contiguous runs of
run lines (`+` in additions mode, `-` in deletions-only mode), closed by
the first context line or hunk boundary, numbered in the respective
file's coordinates.  Equivalently: split the body at context lines; a
maximal context-free segment containing `k ≥ 1` run lines contributes the
range `(n, n + k - 1)`, where `n` is the counter on entering the segment
(the counter advances on run and context lines only). -/

/-- Number of run lines in the leading context-free segment. -/
def segK (isRun : String → Bool) (body : List String) : Nat :=
  ((body.takeWhile (fun x => !isCtxLine x)).filter isRun).length

/-- What follows the leading context-free segment. -/
def segRest (body : List String) : List String :=
  body.dropWhile (fun x => !isCtxLine x)

/-- The spec-side run extraction (see section comment). -/
def specRuns (isRun : String → Bool) (body : List String) (n : Nat) :
    List (Nat × Nat) :=
  match body with
  | [] => []
  | l :: r =>
    if _hctx : isCtxLine l then specRuns isRun r (n + 1)
    else
      (if 0 < segK isRun (l :: r) then [(n, n + segK isRun (l :: r) - 1)] else [])
        ++ specRuns isRun (segRest (l :: r)) (n + segK isRun (l :: r))
termination_by body.length
decreasing_by
  · simp
  · unfold segRest
    rw [List.dropWhile_cons_of_pos (by simp [_hctx])]
    exact Nat.lt_succ_of_le ((List.dropWhile_sublist _).length_le)

/-- The spec's concrete one-hunk patch against file `x.py`. -/
def exampleDiff : String :=
  "--- a/x.py\n+++ b/x.py\n@@ -1,3 +1,4 @@\n a\n+b\n c"

/-! ## Edit-localization metrics (`src/evaluate.py`, `evaluate_instance`)

The gold side (`gold.line_spans_init()`) is passed in as an association
list of per-file line ranges; the repository checkout and gold parsing
that produce it are outside this computation. -/

/-- `gold_ranges_by_file.get(file_path, [])`. -/
def lookupRanges (m : List (String × List (Nat × Nat))) (f : String) :
    List (Nat × Nat) :=
  match m.find? (fun p => p.1 == f) with
  | some p => p.2
  | none => []

/-- `range(start, end + 1)`. -/
def rangeLines (start endLine : Nat) : List Nat :=
  List.range' start (endLine + 1 - start)

/-- The `pred_lines` list: every `(file, line)` of every predicted deleted
range, in loop order. -/
def predLines (edits : List (String × List (Nat × Nat))) : List (String × Nat) :=
  edits.flatMap (fun e =>
    e.2.flatMap (fun iv => (rangeLines iv.1 iv.2).map (fun ln => (e.1, ln))))

/-- The `in_gold` flag: some gold range of the same file contains the
line (`gold_start <= line_num <= gold_end`). -/
def inGold (gold : List (String × List (Nat × Nat))) (f : String) (ln : Nat) :
    Bool :=
  (lookupRanges gold f).any (fun g => g.1 ≤ ln && ln ≤ g.2)

/-- The `results["editloc"]` record. -/
structure EditLocResult where
  «recall» : ℚ
  precision : ℚ
  intersection : Nat
  gold_size : Int
  pred_size : Nat
  deriving DecidableEq

/-- The edit-localization block of `evaluate_instance`, for a given model
patch and gold initial-context line spans. -/
def computeEditLoc (modelPatch : String)
    (goldLineSpans : List (String × List (Nat × Nat))) : EditLocResult :=
  let predLineEdits := parse_diff_lines modelPatch true
  let pl := predLines predLineEdits
  let plg := pl.filter (fun p => inGold goldLineSpans p.1 p.2)
  let predLineCount := pl.length
  let hitCount := plg.length
  let rec0 : ℚ := if predLineCount > 0 then (hitCount : ℚ) / predLineCount else 0
  let precision : ℚ := if predLineCount > 0 then (hitCount : ℚ) / predLineCount else 0
  let goldLineCount : Int :=
    (goldLineSpans.map (fun p => (p.2.map (fun iv => (iv.2 : Int) - iv.1 + 1)).sum)).sum
  ⟨rec0, precision, hitCount, goldLineCount, predLineCount⟩

/-- `pred_data.get(key, "") or ""`: a missing or `None` or empty value
normalizes to the empty string. -/
def orEmpty (x : Option String) : String :=
  match x with
  | none => ""
  | some s => s

/-- The model-patch selection and gating of `evaluate_instance`: use the
prediction's `model_patch`; when that is missing or empty fall back to the
gold record's `patch` field; compute the editloc section only when the
resulting patch is non-empty, and omit it otherwise. -/
def editlocSection (predModelPatch goldPatch : Option String)
    (goldLineSpans : List (String × List (Nat × Nat))) : Option EditLocResult :=
  let mp := orEmpty predModelPatch
  let mp := if mp = "" then orEmpty goldPatch else mp
  if mp = "" then none else some (computeEditLoc mp goldLineSpans)

/-! ## Trajectory metrics (`src/metrics/compute.py`,
`compute_trajectory_metrics`)

Each step enters the loop already converted to its three set
representations: the file set (`set(step.files)`), the definition set
(from the step's symbols or spans, resolved by the extractors against the
checkout), and the per-file merged byte spans (`_step_to_byte_spans`).
Those conversions read the repository, so they are passed in as the
step's data here; the loop itself is embedded verbatim. -/

/-- A definition record `(file, kind, start_byte, end_byte)`. -/
abbrev DefKey := String × String × Nat × Nat

/-- A `Dict[str, List[ByteInterval]]` with unique keys in insertion
order. -/
abbrev SpanMap := List (String × List ByteInterval)

/-- `m.get(f, [])`. -/
def spanGet (m : SpanMap) (f : String) : List ByteInterval :=
  match m.find? (fun p => p.1 == f) with
  | some p => p.2
  | none => []

/-- `m[f] = ivs` (update in place or append). -/
def spanSet (m : SpanMap) (f : String) (ivs : List ByteInterval) : SpanMap :=
  match m with
  | [] => [(f, ivs)]
  | p :: rest => if p.1 = f then (f, ivs) :: rest else p :: spanSet rest f ivs

/-- `span_total_bytes`: total bytes across all files. -/
def span_total_bytes (m : SpanMap) : Nat :=
  (m.map (fun p => length p.2)).sum

/-- `span_intersection_bytes`: per-file intersections summed over the
union of the key sets (summation order is irrelevant). -/
def span_intersection_bytes (a b : SpanMap) : Nat :=
  (((a.map Prod.fst ++ b.map Prod.fst).eraseDups).map
    (fun f => intersect_size (spanGet a f) (spanGet b f))).sum

/-- One trajectory step, in its converted set representations. -/
structure StepRep where
  files : Finset String
  symbols : Finset DefKey
  spans : SpanMap
  deriving DecidableEq

/-- `union_spans[f] = merge(union_spans.get(f, []) + ivs)` for every file
of the step. -/
def unionSpansStep (m : SpanMap) (stepSpans : SpanMap) : SpanMap :=
  stepSpans.foldl (fun acc p => spanSet acc p.1 (merge (spanGet acc p.1 ++ p.2))) m

/-- The loop state of `compute_trajectory_metrics`. -/
structure TrajState where
  unionFiles : Finset String
  unionSymbols : Finset DefKey
  unionSpans : SpanMap
  sumFiles : Nat
  sumSymbols : Nat
  sumSpans : Nat
  covs : List (ℚ × ℚ × ℚ)

/-- The state before the first step. -/
def trajInit : TrajState := ⟨∅, ∅, [], 0, 0, 0, []⟩

/-- One iteration of the loop: extend the running unions, record the
coverage of the unions against the gold, and accumulate the step sizes. -/
def trajStep (goldFiles : Finset String) (goldSymbols : Finset DefKey)
    (goldSpans : SpanMap) (st : TrajState) (step : StepRep) : TrajState :=
  let unionFiles := st.unionFiles ∪ step.files
  let unionSymbols := st.unionSymbols ∪ step.symbols
  let unionSpans := unionSpansStep st.unionSpans step.spans
  let fileCov : ℚ :=
    if goldFiles ≠ ∅ then ((unionFiles ∩ goldFiles).card : ℚ) / goldFiles.card else 1
  let symbolCov : ℚ :=
    if goldSymbols ≠ ∅ then
      ((unionSymbols ∩ goldSymbols).card : ℚ) / goldSymbols.card
    else 1
  let spanGold := span_total_bytes goldSpans
  let spanCov : ℚ :=
    if spanGold > 0 then
      (span_intersection_bytes unionSpans goldSpans : ℚ) / spanGold
    else 1
  ⟨unionFiles, unionSymbols, unionSpans,
    st.sumFiles + step.files.card,
    st.sumSymbols + step.symbols.card,
    st.sumSpans + span_total_bytes step.spans,
    st.covs ++ [(fileCov, symbolCov, spanCov)]⟩

/-- The returned record: per-step coverage triples, AUC-coverage and
redundancy per granularity. -/
structure TrajResult where
  steps : List (ℚ × ℚ × ℚ)
  aucFile : ℚ
  aucSymbol : ℚ
  aucSpan : ℚ
  redFile : ℚ
  redSymbol : ℚ
  redSpan : ℚ
  deriving DecidableEq

/-- `compute_trajectory_metrics(steps, gold_files, gold_symbols,
gold_spans, repo_dir)`. -/
def compute_trajectory_metrics (steps : List StepRep) (goldFiles : Finset String)
    (goldSymbols : Finset DefKey) (goldSpans : SpanMap) : TrajResult :=
  if steps = [] then ⟨[], 0, 0, 0, 0, 0, 0⟩
  else
    let T := steps.length
    let fin := steps.foldl (trajStep goldFiles goldSymbols goldSpans) trajInit
    ⟨fin.covs,
      ((fin.covs.map (fun c => c.1)).sum) / T,
      ((fin.covs.map (fun c => c.2.1)).sum) / T,
      ((fin.covs.map (fun c => c.2.2)).sum) / T,
      if fin.sumFiles > 0 then 1 - (fin.unionFiles.card : ℚ) / fin.sumFiles else 0,
      if fin.sumSymbols > 0 then 1 - (fin.unionSymbols.card : ℚ) / fin.sumSymbols else 0,
      if fin.sumSpans > 0 then
        1 - (span_total_bytes fin.unionSpans : ℚ) / fin.sumSpans
      else 0⟩

/-! ### Reference definitions from the spec's words: running unions over
the first `t` steps and their coverage against the gold. -/

/-- Union of the file sets of the first `t` steps. -/
def prefixUnionFiles (steps : List StepRep) (t : Nat) : Finset String :=
  (steps.take t).foldl (fun a s => a ∪ s.files) ∅

/-- Union of the definition sets of the first `t` steps. -/
def prefixUnionSymbols (steps : List StepRep) (t : Nat) : Finset DefKey :=
  (steps.take t).foldl (fun a s => a ∪ s.symbols) ∅

/-- Merged union of the byte spans of the first `t` steps. -/
def prefixUnionSpans (steps : List StepRep) (t : Nat) : SpanMap :=
  (steps.take t).foldl (fun a s => unionSpansStep a s.spans) []

/-- Coverage of the running unions after `t` steps against the gold, per
granularity. -/
def stepCoverage (goldFiles : Finset String) (goldSymbols : Finset DefKey)
    (goldSpans : SpanMap) (steps : List StepRep) (t : Nat) : ℚ × ℚ × ℚ :=
  (if goldFiles ≠ ∅ then
      ((prefixUnionFiles steps t ∩ goldFiles).card : ℚ) / goldFiles.card
    else 1,
   if goldSymbols ≠ ∅ then
      ((prefixUnionSymbols steps t ∩ goldSymbols).card : ℚ) / goldSymbols.card
    else 1,
   if span_total_bytes goldSpans > 0 then
      (span_intersection_bytes (prefixUnionSpans steps t) goldSpans : ℚ) /
        span_total_bytes goldSpans
    else 1)

/-! ## Symbol-name matching (`src/extractors/treesitter.py`,
`extract_def_set_from_symbol_names`)

`extract_named_defs` runs the tree-sitter parser (or the regex fallback)
against the checkout; its per-file result — the named definitions
`(kind, name, start_byte, end_byte)` — is passed in here, and the
name-matching loop the claim is about is embedded verbatim. -/

/-- A named definition `(kind, name, start_byte, end_byte)`. -/
abbrev NamedDef := String × String × Nat × Nat

/-- `by_name.get(cand, [])`: the defs carrying a given name, in
extraction order (`by_name.setdefault(name, []).append((kind, s, e))`). -/
def defsFor (namedDefs : List NamedDef) (name : String) :
    List (String × Nat × Nat) :=
  namedDefs.filterMap (fun d => if d.2.1 = name then some (d.1, d.2.2) else none)

/-- Python whitespace stripped by `str.strip()`. -/
def pyStripWs (c : Char) : Bool :=
  c == ' ' || c == '\t' || c == '\n' || c == '\r' || c == '\x0b' || c == '\x0c'

/-- `raw.strip()`. -/
def pyStrip (s : String) : String :=
  String.mk (((s.data.dropWhile pyStripWs).reverse.dropWhile pyStripWs).reverse)

/-- `sym.split(".")[-1]`: the trailing component after the last dot. -/
def lastComponent (sym : String) : String :=
  match (splitChar '.' sym.data).getLast? with
  | some cs => String.mk cs
  | none => sym

/-- The candidate loop: the first candidate whose `by_name` entry is
non-empty contributes all of its defs and stops the search. -/
def firstMatch (namedDefs : List NamedDef) : List String → List (String × Nat × Nat)
  | [] => []
  | c :: rest =>
    let defs := defsFor namedDefs c
    if defs.isEmpty then firstMatch namedDefs rest else defs

/-- The per-name body of `extract_def_set_from_symbol_names`: skip blank
names, try the exact (stripped) name, then — only when it contains a
dot — its trailing component. -/
def symbolMatches (namedDefs : List NamedDef) (raw : String) :
    List (String × Nat × Nat) :=
  let sym := pyStrip raw
  if sym = "" then []
  else
    firstMatch namedDefs
      ([sym] ++ (if sym.data.contains '.' then [lastComponent sym] else []))

/-- The per-file contribution to the output set
`{(file, kind, start_byte, end_byte)}` (as a list; the Python `set`
deduplicates, so only membership matters). -/
def extract_def_set_from_symbol_names_file (relPath : String)
    (namedDefs : List NamedDef) (symbols : List String) :
    List (String × String × Nat × Nat) :=
  symbols.flatMap (fun raw =>
    (symbolMatches namedDefs raw).map (fun d => (relPath, d.1, d.2.1, d.2.2)))

/-! ## Extractor availability (`src/extractors/treesitter.py` `available`;
`src/evaluate.py` `main`) -/

/-- The regex fallback (`extract_named_defs` without tree-sitter) is
plain code in the same module with no imports and no preconditions: it
can always be initialized. -/
def fallback_available : Bool := true

/-- `available()` from `src/extractors/treesitter.py`: returns `True`
unconditionally (some definition-extraction backend — tree-sitter or the
regex fallback — is always available). -/
def available : Bool := true

/-- The availability gate at the top of `main` in `src/evaluate.py`:
`if not ts_available(): sys.exit(1)`.  `0` stands for any non-gate
outcome of the run, `1` is the gate's failure exit code. -/
def main_exit_gate (avail : Bool) : Nat := if avail then 0 else 1


/-! ## Properties of `merge` -/

theorem lexLe_total (a b : ByteInterval) : lexLe a b ∨ lexLe b a := by
  unfold lexLe; omega

theorem insLex_perm (a : ByteInterval) (l : List ByteInterval) :
    List.Perm (insLex a l) (a :: l) := by
  induction l with
  | nil => simp [insLex]
  | cons b t ih =>
    by_cases h : lexLe a b
    · simp [insLex, h]
    · rw [insLex, if_neg h]
      exact List.Perm.trans (List.Perm.cons b ih) (List.Perm.swap a b t)

theorem sortLex_perm (l : List ByteInterval) : List.Perm (sortLex l) l := by
  induction l with
  | nil => simp [sortLex]
  | cons a t ih =>
    exact List.Perm.trans (insLex_perm a (sortLex t)) (List.Perm.cons a ih)

theorem insLex_sorted {a : ByteInterval} {l : List ByteInterval}
    (h : List.Sorted lexLe l) : List.Sorted lexLe (insLex a l) := by
  induction l with
  | nil => simp [insLex]
  | cons b t ih =>
    rcases List.sorted_cons.mp h with ⟨hb, ht⟩
    by_cases hab : lexLe a b
    · rw [insLex, if_pos hab]
      refine List.sorted_cons.mpr ⟨?_, h⟩
      intro c hc
      rcases List.mem_cons.mp hc with rfl | hc
      · exact hab
      · have := hb c hc
        unfold lexLe at *
        omega
    · rw [insLex, if_neg hab]
      refine List.sorted_cons.mpr ⟨?_, ih ht⟩
      intro c hc
      rcases List.mem_cons.mp ((insLex_perm a t).mem_iff.mp hc) with heq | hc2
      · rw [heq]
        rcases lexLe_total a b with h1 | h1
        · exact absurd h1 hab
        · exact h1
      · exact hb c hc2

theorem sortLex_sorted (l : List ByteInterval) : List.Sorted lexLe (sortLex l) := by
  induction l with
  | nil => simp [sortLex]
  | cons a t ih => exact insLex_sorted ih

theorem sortLex_eq_self {l : List ByteInterval}
    (h : List.Sorted lexLe l) : sortLex l = l := by
  induction l with
  | nil => rfl
  | cons a t ih =>
    rcases List.sorted_cons.mp h with ⟨ha, ht⟩
    rw [sortLex, ih ht]
    cases t with
    | nil => rfl
    | cons c r => rw [insLex, if_pos (ha c (List.mem_cons_self c r))]

/-- `mergeGo` never returns the empty list, and the head keeps the start of
the accumulator interval. -/
theorem mergeGo_head (last : ByteInterval) (t : List ByteInterval) :
    ∃ e r, mergeGo last t = (last.1, e) :: r := by
  induction t generalizing last with
  | nil => exact ⟨last.2, [], rfl⟩
  | cons c rest ih =>
    by_cases h : c.1 ≤ last.2 + 1
    · rw [mergeGo, if_pos h]
      exact ih (last.1, max last.2 c.2)
    · exact ⟨last.2, mergeGo c rest, by rw [mergeGo, if_neg h]⟩

/-- Absorbing the next interval into the accumulator preserves sortedness
of the remaining input. -/
theorem sorted_absorb {last c : ByteInterval} {rest : List ByteInterval}
    (hs : List.Sorted lexLe (last :: c :: rest)) :
    List.Sorted lexLe ((last.1, max last.2 c.2) :: rest) := by
  rcases List.sorted_cons.mp hs with ⟨hlast, hs'⟩
  rcases List.sorted_cons.mp hs' with ⟨hc, hrest⟩
  refine List.sorted_cons.mpr ⟨?_, hrest⟩
  intro d hd
  have h1 := hlast d (List.mem_cons_of_mem c hd)
  have h2 := hc d hd
  have h3 := hlast c (List.mem_cons_self c rest)
  rcases max_choice last.2 c.2 with hm | hm <;>
    · unfold lexLe at *
      rw [hm]
      omega

theorem valid_absorb {last c : ByteInterval} {rest : List ByteInterval}
    (hv : ∀ iv ∈ last :: c :: rest, validIv iv) :
    ∀ iv ∈ (last.1, max last.2 c.2) :: rest, validIv iv := by
  intro iv hiv
  rcases List.mem_cons.mp hiv with rfl | hiv
  · have := hv last (List.mem_cons_self _ _)
    unfold validIv at *
    exact le_trans this (le_max_left _ _)
  · exact hv iv (List.mem_cons_of_mem _ (List.mem_cons_of_mem _ hiv))

theorem mergeGo_invariant {last : ByteInterval} {t : List ByteInterval}
    (hs : List.Sorted lexLe (last :: t)) (hv : ∀ iv ∈ last :: t, validIv iv) :
    List.Chain' gapped (mergeGo last t) ∧ ∀ iv ∈ mergeGo last t, validIv iv := by
  induction t generalizing last with
  | nil =>
    refine ⟨by simp [mergeGo], ?_⟩
    intro iv hiv
    rw [mergeGo, List.mem_singleton] at hiv
    rw [hiv]
    exact hv last (List.mem_cons_self _ _)
  | cons c rest ih =>
    by_cases h : c.1 ≤ last.2 + 1
    · rw [mergeGo, if_pos h]
      exact ih (sorted_absorb hs) (valid_absorb hv)
    · rw [mergeGo, if_neg h]
      have hs' := (List.sorted_cons.mp hs).2
      have hv' : ∀ iv ∈ c :: rest, validIv iv :=
        fun iv hiv => hv iv (List.mem_cons_of_mem _ hiv)
      have ihc := ih hs' hv'
      obtain ⟨e, r, hr⟩ := mergeGo_head c rest
      refine ⟨?_, ?_⟩
      · rw [hr]
        rw [hr] at ihc
        refine List.chain'_cons.mpr ⟨?_, ihc.1⟩
        unfold gapped
        simp only
        omega
      · intro iv hiv
        rcases List.mem_cons.mp hiv with heq | hiv
        · rw [heq]
          exact hv last (List.mem_cons_self _ _)
        · exact ihc.2 iv hiv

theorem mergeGo_covered {last : ByteInterval} {t : List ByteInterval}
    (hs : List.Sorted lexLe (last :: t)) (hv : ∀ iv ∈ last :: t, validIv iv) :
    ∀ n, covered (mergeGo last t) n ↔ covered (last :: t) n := by
  induction t generalizing last with
  | nil => intro n; rfl
  | cons c rest ih =>
    intro n
    rcases List.sorted_cons.mp hs with ⟨hlast, hs'⟩
    by_cases h : c.1 ≤ last.2 + 1
    · rw [mergeGo, if_pos h]
      rw [ih (sorted_absorb hs) (valid_absorb hv) n]
      have hvl := hv last (List.mem_cons_self _ _)
      have hvc := hv c (List.mem_cons_of_mem _ (List.mem_cons_self _ _))
      have hlc := hlast c (List.mem_cons_self _ _)
      unfold covered validIv lexLe at *
      constructor
      · rintro ⟨iv, hiv, hn1, hn2⟩
        rcases List.mem_cons.mp hiv with heq | hiv
        · rw [heq] at hn1 hn2
          rcases max_choice last.2 c.2 with hm | hm <;> rw [hm] at hn2
          · exact ⟨last, List.mem_cons_self _ _, hn1, hn2⟩
          · by_cases hle : n ≤ last.2
            · exact ⟨last, List.mem_cons_self _ _, hn1, hle⟩
            · exact ⟨c, List.mem_cons_of_mem _ (List.mem_cons_self _ _),
                by omega, hn2⟩
        · exact ⟨iv, List.mem_cons_of_mem _ (List.mem_cons_of_mem _ hiv), hn1, hn2⟩
      · rintro ⟨iv, hiv, hn1, hn2⟩
        rcases List.mem_cons.mp hiv with heq | hiv
        · rw [heq] at hn1 hn2
          exact ⟨(last.1, max last.2 c.2), List.mem_cons_self _ _, hn1,
            le_trans hn2 (le_max_left _ _)⟩
        · rcases List.mem_cons.mp hiv with heq | hiv
          · rw [heq] at hn1 hn2
            refine ⟨(last.1, max last.2 c.2), List.mem_cons_self _ _, ?_,
              le_trans hn2 (le_max_right _ _)⟩
            show last.1 ≤ n
            omega
          · exact ⟨iv, List.mem_cons_of_mem _ hiv, hn1, hn2⟩
    · rw [mergeGo, if_neg h]
      have hv' : ∀ iv ∈ c :: rest, validIv iv :=
        fun iv hiv => hv iv (List.mem_cons_of_mem _ hiv)
      have ihc := ih hs' hv' n
      unfold covered at *
      constructor
      · rintro ⟨iv, hiv, hn1, hn2⟩
        rcases List.mem_cons.mp hiv with heq | hiv
        · rw [heq] at hn1 hn2
          exact ⟨last, List.mem_cons_self _ _, hn1, hn2⟩
        · obtain ⟨jv, hj, hj1, hj2⟩ := ihc.mp ⟨iv, hiv, hn1, hn2⟩
          exact ⟨jv, List.mem_cons_of_mem _ hj, hj1, hj2⟩
      · rintro ⟨iv, hiv, hn1, hn2⟩
        rcases List.mem_cons.mp hiv with heq | hiv
        · rw [heq] at hn1 hn2
          exact ⟨last, List.mem_cons_self _ _, hn1, hn2⟩
        · obtain ⟨jv, hj, hj1, hj2⟩ := ihc.mpr ⟨iv, hiv, hn1, hn2⟩
          exact ⟨jv, List.mem_cons_of_mem _ hj, hj1, hj2⟩

theorem mergeGo_fixed {last : ByteInterval} {t : List ByteInterval}
    (h : List.Chain' gapped (last :: t)) : mergeGo last t = last :: t := by
  induction t generalizing last with
  | nil => rfl
  | cons c rest ih =>
    have hg : gapped last c := (List.chain'_cons.mp h).1
    unfold gapped at hg
    rw [mergeGo, if_neg (by omega), ih (List.chain'_cons.mp h).2]

theorem merge_eq_nil {l : List ByteInterval} (h : sortLex l = []) : merge l = [] := by
  unfold merge
  rw [h]

theorem merge_eq_cons {l t : List ByteInterval} {a : ByteInterval}
    (h : sortLex l = a :: t) : merge l = mergeGo a t := by
  unfold merge
  rw [h]

theorem merge_sorted_valid {l : List ByteInterval} (hv : ∀ iv ∈ l, validIv iv) :
    List.Chain' gapped (merge l) ∧ ∀ iv ∈ merge l, validIv iv := by
  have hs := sortLex_sorted l
  have hv' : ∀ iv ∈ sortLex l, validIv iv :=
    fun iv hiv => hv iv ((sortLex_perm l).mem_iff.mp hiv)
  cases hsl : sortLex l with
  | nil => rw [merge_eq_nil hsl]; simp
  | cons a t =>
    rw [merge_eq_cons hsl]
    rw [hsl] at hs hv'
    exact mergeGo_invariant hs hv'

theorem merge_covered {l : List ByteInterval} (hv : ∀ iv ∈ l, validIv iv) :
    ∀ n, covered (merge l) n ↔ covered l n := by
  intro n
  have hs := sortLex_sorted l
  have hv' : ∀ iv ∈ sortLex l, validIv iv :=
    fun iv hiv => hv iv ((sortLex_perm l).mem_iff.mp hiv)
  have hcov : covered (sortLex l) n ↔ covered l n := by
    unfold covered
    constructor
    · rintro ⟨iv, hiv, h1, h2⟩
      exact ⟨iv, (sortLex_perm l).mem_iff.mp hiv, h1, h2⟩
    · rintro ⟨iv, hiv, h1, h2⟩
      exact ⟨iv, (sortLex_perm l).mem_iff.mpr hiv, h1, h2⟩
  cases hsl : sortLex l with
  | nil =>
    rw [merge_eq_nil hsl, ← hsl]
    exact hcov
  | cons a t =>
    rw [merge_eq_cons hsl]
    rw [hsl] at hs hv' hcov
    exact (mergeGo_covered hs hv' n).trans hcov

/-- In a gapped chain of valid intervals, the head is gapped before every
later element. -/
theorem chain'_gapped_all {a : ByteInterval} {t : List ByteInterval}
    (hc : List.Chain' gapped (a :: t)) (hv : ∀ iv ∈ a :: t, validIv iv) :
    ∀ b ∈ t, gapped a b := by
  induction t generalizing a with
  | nil => simp
  | cons c rest ih =>
    intro b hb
    have hac : gapped a c := (List.chain'_cons.mp hc).1
    rcases List.mem_cons.mp hb with rfl | hb
    · exact hac
    · have h2 := ih (a := c) (List.chain'_cons.mp hc).2
        (fun iv hiv => hv iv (List.mem_cons_of_mem _ hiv)) b hb
      have hvc := hv c (List.mem_cons_of_mem _ (List.mem_cons_self _ _))
      unfold gapped validIv at *
      omega

theorem chain'_gapped_pairwise {l : List ByteInterval}
    (hc : List.Chain' gapped l) (hv : ∀ iv ∈ l, validIv iv) :
    List.Pairwise gapped l := by
  induction l with
  | nil => simp
  | cons a t ih =>
    exact List.pairwise_cons.mpr
      ⟨chain'_gapped_all hc hv,
       ih hc.tail (fun iv hiv => hv iv (List.mem_cons_of_mem _ hiv))⟩

theorem chain'_gapped_sorted {l : List ByteInterval}
    (hc : List.Chain' gapped l) (hv : ∀ iv ∈ l, validIv iv) :
    List.Sorted lexLe l := by
  induction l with
  | nil => simp
  | cons a t ih =>
    refine List.sorted_cons.mpr
      ⟨?_, ih hc.tail (fun iv hiv => hv iv (List.mem_cons_of_mem _ hiv))⟩
    intro b hb
    have h1 := chain'_gapped_all hc hv b hb
    have h2 := hv a (List.mem_cons_self _ _)
    unfold gapped validIv lexLe at *
    omega

theorem merge_idem {l : List ByteInterval} (hv : ∀ iv ∈ l, validIv iv) :
    merge (merge l) = merge l := by
  obtain ⟨hc, hval⟩ := merge_sorted_valid hv
  have hsort : sortLex (merge l) = merge l :=
    sortLex_eq_self (chain'_gapped_sorted hc hval)
  cases hm : merge l with
  | nil =>
    rw [hm] at hsort
    rw [merge_eq_nil hsort]
  | cons a t =>
    rw [hm] at hsort hc
    rw [merge_eq_cons hsort]
    exact mergeGo_fixed hc

/-! ## Claim theorems for the interval algebra and coverage/precision -/

/-- C7: for every list of valid byte intervals (possibly empty or
unsorted), `merge` is idempotent, its output is sorted, pairwise disjoint
and non-adjacent (every later interval starts at least two bytes after
every earlier one ends), all output intervals are valid, and
overlapping-or-adjacent inputs are folded together without losing or
inventing coverage: a byte is covered by the output iff it is covered by
the input. -/
theorem merge_spec (l : List ByteInterval) (hv : ∀ iv ∈ l, iv.1 ≤ iv.2) :
    merge (merge l) = merge l
    ∧ List.Pairwise (fun x y : ByteInterval => x.2 + 1 < y.1) (merge l)
    ∧ (∀ iv ∈ merge l, iv.1 ≤ iv.2)
    ∧ (∀ n, (∃ iv ∈ merge l, iv.1 ≤ n ∧ n ≤ iv.2) ↔ ∃ iv ∈ l, iv.1 ≤ n ∧ n ≤ iv.2) := by
  have hv' : ∀ iv ∈ l, validIv iv := hv
  obtain ⟨hc, hval⟩ := merge_sorted_valid hv'
  exact ⟨merge_idem hv', chain'_gapped_pairwise hc hval, hval, merge_covered hv'⟩

/-- Witness for C7 at a concrete unsorted, overlapping input. -/
theorem merge_spec_witness :
    (∀ iv ∈ [((5:Nat),(7:Nat)), (0,2), (3,4)], iv.1 ≤ iv.2)
    ∧ (merge (merge [((5:Nat),(7:Nat)), (0,2), (3,4)]) =
        merge [((5:Nat),(7:Nat)), (0,2), (3,4)]
      ∧ List.Pairwise (fun x y : ByteInterval => x.2 + 1 < y.1)
          (merge [((5:Nat),(7:Nat)), (0,2), (3,4)])
      ∧ (∀ iv ∈ merge [((5:Nat),(7:Nat)), (0,2), (3,4)], iv.1 ≤ iv.2)
      ∧ (∀ n, (∃ iv ∈ merge [((5:Nat),(7:Nat)), (0,2), (3,4)], iv.1 ≤ n ∧ n ≤ iv.2) ↔
          ∃ iv ∈ [((5:Nat),(7:Nat)), (0,2), (3,4)], iv.1 ≤ n ∧ n ≤ iv.2)) :=
  ⟨by decide, merge_spec [((5:Nat),(7:Nat)), (0,2), (3,4)] (by decide)⟩

/-- C1: `coverage_precision` returns `inter/gold` as coverage (`1.0` when
`gold = 0`) and `inter/pred` as precision (`1.0` when `pred = 0`), for all
non-negative sizes; in particular `(0,0,0) ↦ (1,1)`, `(5,0,0) ↦ (1,0)`,
`(0,5,0) ↦ (0,1)`. -/
theorem coverage_precision_spec (p g i : ℚ) (hp : 0 ≤ p) (hg : 0 ≤ g) :
    ((g = 0 → (coverage_precision p g i).1 = 1)
      ∧ (g ≠ 0 → (coverage_precision p g i).1 = i / g)
      ∧ (p = 0 → (coverage_precision p g i).2 = 1)
      ∧ (p ≠ 0 → (coverage_precision p g i).2 = i / p))
    ∧ coverage_precision 0 0 0 = (1, 1)
    ∧ coverage_precision 5 0 0 = (1, 0)
    ∧ coverage_precision 0 5 0 = (0, 1) := by
  unfold coverage_precision
  refine ⟨⟨?_, ?_, ?_, ?_⟩, by norm_num, by norm_num, by norm_num⟩
  · intro h; simp [h]
  · intro h; rw [if_pos (lt_of_le_of_ne hg (Ne.symm h))]
  · intro h; simp [h]
  · intro h; rw [if_pos (lt_of_le_of_ne hp (Ne.symm h))]

/-- Witness for C1 at concrete sizes. -/
theorem coverage_precision_spec_witness :
    (0:ℚ) ≤ 4 ∧ (0:ℚ) ≤ 2 ∧
    (((2:ℚ) = 0 → (coverage_precision 4 2 1).1 = 1)
      ∧ ((2:ℚ) ≠ 0 → (coverage_precision 4 2 1).1 = 1 / 2)
      ∧ ((4:ℚ) = 0 → (coverage_precision 4 2 1).2 = 1)
      ∧ ((4:ℚ) ≠ 0 → (coverage_precision 4 2 1).2 = 1 / 4))
    ∧ coverage_precision 0 0 0 = (1, 1)
    ∧ coverage_precision 5 0 0 = (1, 0)
    ∧ coverage_precision 0 5 0 = (0, 1) :=
  ⟨by norm_num, by norm_num, coverage_precision_spec 4 2 1 (by norm_num) (by norm_num)⟩

/-- C2 (counterexample): the claim's concrete figures are wrong for the
file `"abc\nde\nf"`: it has 8 bytes, not 11, and span `(1,3)` maps to
`(0,7)`, not `(0,10)`. -/
theorem line_to_byte_claim_counterexample :
    ¬ (abcFile.length = 11 ∧ line_to_byte abcFile 1 3 = some (0, 10)) := by
  decide

/-- C2 (amended): `line_to_byte` behaves as the reference definition: a
missing or unreadable file yields no mapping; an empty file yields
`(0,0)`; if `startLine` exceeds the number of lines (the length of the
line-start offset table) it yields no mapping; otherwise it returns the
offset of `startLine` paired with one less than the offset of
`endLine + 1` — or `len(content) - 1` when `endLine` is the last line —
floored at the start byte.  Concretely, on the 8-byte file
`"abc\nde\nf"`, span `(2,2)` maps to `(4,6)`, span `(1,3)` maps to
`(0,7)`, and span `(5,5)` yields no mapping. -/
theorem line_to_byte_spec (content : List Nat) (s e : Int)
    (hne : content ≠ []) (hs : 1 ≤ s) (hse : s ≤ e) :
    (∀ s' e' : Int, line_to_byte_file none s' e' = none)
    ∧ (∀ s' e' : Int, line_to_byte_file (some []) s' e' = some (0, 0))
    ∧ (((lineOffsets content).length : Int) < s →
        line_to_byte_file (some content) s e = none)
    ∧ (s ≤ ((lineOffsets content).length : Int) →
        line_to_byte_file (some content) s e =
          some ((lineOffsets content).getD (s.toNat - 1) 0,
            max ((lineOffsets content).getD (s.toNat - 1) 0)
              (if e.toNat < (lineOffsets content).length then
                (lineOffsets content).getD e.toNat 0 - 1
              else content.length - 1)))
    ∧ line_to_byte abcFile 2 2 = some (4, 6)
    ∧ line_to_byte abcFile 1 3 = some (0, 7)
    ∧ line_to_byte abcFile 5 5 = none := by
  refine ⟨fun _ _ => rfl, fun s' e' => by simp [line_to_byte_file, line_to_byte],
    ?_, ?_, by decide, by decide, by decide⟩
  · intro hgt
    show line_to_byte content s e = none
    unfold line_to_byte
    rw [if_neg hne]
    simp only
    rw [if_pos (by omega)]
  · intro hle
    show line_to_byte content s e = some _
    unfold line_to_byte
    rw [if_neg hne]
    simp only
    have hmax1 : max 1 s = s := by omega
    have hmax2 : max s e = e := by omega
    rw [hmax1, hmax2]
    have hidx : ¬ (lineOffsets content).length ≤ (s - 1).toNat := by omega
    rw [if_neg hidx]
    have h1 : (s - 1).toNat = s.toNat - 1 := by omega
    have h2 : (e - 1).toNat + 1 = e.toNat := by omega
    rw [h1, h2]

/-- Witness for C2 at the concrete file and spans of the claim. -/
theorem line_to_byte_spec_witness :
    (abcFile ≠ [] ∧ (1:Int) ≤ 2 ∧ (2:Int) ≤ 2) ∧
    ((∀ s' e' : Int, line_to_byte_file none s' e' = none)
    ∧ (∀ s' e' : Int, line_to_byte_file (some []) s' e' = some (0, 0))
    ∧ (((lineOffsets abcFile).length : Int) < 2 →
        line_to_byte_file (some abcFile) 2 2 = none)
    ∧ ((2:Int) ≤ ((lineOffsets abcFile).length : Int) →
        line_to_byte_file (some abcFile) 2 2 =
          some ((lineOffsets abcFile).getD ((2:Int).toNat - 1) 0,
            max ((lineOffsets abcFile).getD ((2:Int).toNat - 1) 0)
              (if (2:Int).toNat < (lineOffsets abcFile).length then
                (lineOffsets abcFile).getD (2:Int).toNat 0 - 1
              else abcFile.length - 1)))
    ∧ line_to_byte abcFile 2 2 = some (4, 6)
    ∧ line_to_byte abcFile 1 3 = some (0, 7)
    ∧ line_to_byte abcFile 5 5 = none) :=
  ⟨⟨by decide, by decide, by decide⟩,
    line_to_byte_spec abcFile 2 2 (by decide) (by decide) (by decide)⟩

/-! ## Properties of the diff parser -/

theorem strStarts_head {c : Char} {p l : String} (hp : p.data = [c])
    (h : strStarts p l = true) : ∃ cs, l.data = c :: cs := by
  unfold strStarts at h
  rw [hp] at h
  cases hd : l.data with
  | nil => rw [hd] at h; simp [List.isPrefixOf] at h
  | cons d cs =>
    rw [hd] at h
    simp only [List.isPrefixOf, Bool.and_eq_true, beq_iff_eq] at h
    obtain ⟨hcd, -⟩ := h
    subst hcd
    exact ⟨cs, rfl⟩

theorem strStarts_first_ne {c d : Char} {cs ds : List Char} {p l : String}
    (hl : l.data = c :: cs) (hp : p.data = d :: ds) (hne : d ≠ c) :
    strStarts p l = false := by
  unfold strStarts
  rw [hp, hl]
  simp only [List.isPrefixOf]
  rw [show (d == c) = false from beq_eq_false_iff_ne.mpr hne]
  rfl

theorem isPlusLine_shape {l : String} (h : isPlusLine l = true) :
    ∃ cs, l.data = '+' :: cs := by
  unfold isPlusLine at h
  simp only [Bool.and_eq_true] at h
  exact strStarts_head rfl h.1

theorem isMinusLine_shape {l : String} (h : isMinusLine l = true) :
    ∃ cs, l.data = '-' :: cs := by
  unfold isMinusLine at h
  simp only [Bool.and_eq_true] at h
  exact strStarts_head rfl h.1

theorem isCtxLine_shape {l : String} (h : isCtxLine l = true) :
    ∃ cs, l.data = ' ' :: cs :=
  strStarts_head rfl h

theorem isPlusLine_not_end {l : String} (h : isPlusLine l = true) :
    isHunkEnd l = false := by
  obtain ⟨cs, hl⟩ := isPlusLine_shape h
  unfold isHunkEnd
  rw [strStarts_first_ne hl (show ("@@" : String).data = '@' :: ['@'] from rfl)
      (by decide),
    strStarts_first_ne hl
      (show ("diff " : String).data = 'd' :: ['i', 'f', 'f', ' '] from rfl)
      (by decide),
    strStarts_first_ne hl (show ("---" : String).data = '-' :: ['-', '-'] from rfl)
      (by decide)]
  rfl

theorem isMinusLine_not_end {l : String} (h : isMinusLine l = true) :
    isHunkEnd l = false := by
  obtain ⟨cs, hl⟩ := isMinusLine_shape h
  have h3 : strStarts "---" l = false := by
    have h2 := h
    unfold isMinusLine at h2
    simp only [Bool.and_eq_true, Bool.not_eq_true'] at h2
    exact h2.2
  unfold isHunkEnd
  rw [h3, strStarts_first_ne hl (show ("@@" : String).data = '@' :: ['@'] from rfl)
      (by decide),
    strStarts_first_ne hl
      (show ("diff " : String).data = 'd' :: ['i', 'f', 'f', ' '] from rfl)
      (by decide)]
  rfl

theorem isCtxLine_not_end {l : String} (h : isCtxLine l = true) :
    isHunkEnd l = false := by
  obtain ⟨cs, hl⟩ := isCtxLine_shape h
  unfold isHunkEnd
  rw [strStarts_first_ne hl (show ("@@" : String).data = '@' :: ['@'] from rfl)
      (by decide),
    strStarts_first_ne hl
      (show ("diff " : String).data = 'd' :: ['i', 'f', 'f', ' '] from rfl)
      (by decide),
    strStarts_first_ne hl (show ("---" : String).data = '-' :: ['-', '-'] from rfl)
      (by decide)]
  rfl

theorem isCtxLine_not_run {l : String} (h : isCtxLine l = true) :
    isPlusLine l = false ∧ isMinusLine l = false := by
  obtain ⟨cs, hl⟩ := isCtxLine_shape h
  constructor
  · unfold isPlusLine
    rw [strStarts_first_ne hl (show ("+" : String).data = '+' :: [] from rfl)
        (by decide)]
    rfl
  · unfold isMinusLine
    rw [strStarts_first_ne hl (show ("-" : String).data = '-' :: [] from rfl)
        (by decide)]
    rfl

theorem dropWhile_head_false {α : Type} (p : α → Bool) :
    ∀ {l : List α} {c : α} {r' : List α}, l.dropWhile p = c :: r' → p c = false := by
  intro l
  induction l with
  | nil => intro c r' h; simp [List.dropWhile] at h
  | cons a t ih =>
    intro c r' h
    by_cases hp : p a = true
    · rw [List.dropWhile_cons_of_pos hp] at h
      exact ih h
    · rw [List.dropWhile_cons_of_neg hp] at h
      injection h with h1 _
      rw [← h1]
      exact Bool.eq_false_iff.mpr hp

theorem segRest_head_ctx {body : List String} {c : String} {r' : List String}
    (h : segRest body = c :: r') : isCtxLine c = true := by
  have := dropWhile_head_false (fun x => !isCtxLine x) h
  simpa using this

theorem specRuns_nil (isRun : String → Bool) (n : Nat) :
    specRuns isRun [] n = [] := by
  unfold specRuns
  rfl

theorem specRuns_ctx (isRun : String → Bool) {l : String} (r : List String) (n : Nat)
    (h : isCtxLine l = true) :
    specRuns isRun (l :: r) n = specRuns isRun r (n + 1) := by
  conv_lhs => unfold specRuns
  rw [dif_pos h]

theorem specRuns_seg (isRun : String → Bool) {l : String} (r : List String) (n : Nat)
    (h : isCtxLine l = false) :
    specRuns isRun (l :: r) n =
      (if 0 < segK isRun (l :: r) then [(n, n + segK isRun (l :: r) - 1)] else [])
        ++ specRuns isRun (segRest (l :: r)) (n + segK isRun (l :: r)) := by
  conv_lhs => unfold specRuns
  rw [dif_neg (by simp [h])]

theorem segK_ctx (isRun : String → Bool) {l : String} (r : List String)
    (h : isCtxLine l = true) : segK isRun (l :: r) = 0 := by
  unfold segK
  rw [List.takeWhile_cons_of_neg (by simp [h])]
  rfl

theorem segRest_ctx {l : String} (r : List String) (h : isCtxLine l = true) :
    segRest (l :: r) = l :: r := by
  unfold segRest
  rw [List.dropWhile_cons_of_neg (by simp [h])]

theorem segK_cons_run (isRun : String → Bool) {l : String} (r : List String)
    (hc : isCtxLine l = false) (hr : isRun l = true) :
    segK isRun (l :: r) = segK isRun r + 1 := by
  unfold segK
  rw [List.takeWhile_cons_of_pos (by simp [hc]), List.filter_cons_of_pos hr]
  simp

theorem segK_cons_norun (isRun : String → Bool) {l : String} (r : List String)
    (hc : isCtxLine l = false) (hr : isRun l = false) :
    segK isRun (l :: r) = segK isRun r := by
  unfold segK
  rw [List.takeWhile_cons_of_pos (by simp [hc]), List.filter_cons_of_neg (by simp [hr])]

theorem segRest_cons {l : String} (r : List String) (hc : isCtxLine l = false) :
    segRest (l :: r) = segRest r := by
  unfold segRest
  rw [List.dropWhile_cons_of_pos (by simp [hc])]

theorem specRuns_skip_cons (isRun : String → Bool) {l : String} (r : List String)
    (hc : isCtxLine l = false) (hr : isRun l = false) (n : Nat) :
    specRuns isRun (l :: r) n = specRuns isRun r n := by
  rw [specRuns_seg isRun r n hc, segK_cons_norun isRun r hc hr, segRest_cons r hc]
  cases r with
  | nil => simp [specRuns_nil, segK, segRest]
  | cons c r' =>
    by_cases hcc : isCtxLine c = true
    · rw [segK_ctx isRun r' hcc, segRest_ctx r' hcc]
      simp only [Nat.add_zero, Nat.lt_irrefl, if_false, List.nil_append]
    · rw [specRuns_seg isRun r' n (Bool.eq_false_iff.mpr hcc)]

/-- Refinement of the inner hunk scan to the spec-side run extraction, for
hunk bodies made only of run, skip and context lines. -/
theorem scanRuns_eq_specRuns (isRun isSkip : String → Bool) :
    ∀ body : List String,
      (∀ l ∈ body, isHunkEnd l = false) →
      (∀ l ∈ body, isRun l = true ∨ isSkip l = true ∨ isCtxLine l = true) →
      (∀ l ∈ body, isCtxLine l = true → isRun l = false ∧ isSkip l = false) →
      (∀ n, scanRuns isRun isSkip body n none = specRuns isRun body n)
      ∧ (∀ n s, scanRuns isRun isSkip body n (some s) =
          (s, n + segK isRun body - 1) ::
            specRuns isRun (segRest body) (n + segK isRun body)) := by
  intro body
  induction body with
  | nil =>
    intro _ _ _
    constructor
    · intro n
      rw [specRuns_nil]
      rfl
    · intro n s
      rw [show segK isRun [] = 0 from rfl, show segRest ([] : List String) = [] from rfl,
        specRuns_nil]
      simp [scanRuns]
  | cons l r ih =>
    intro hend hcat hctx
    have hendl := hend l (List.mem_cons_self _ _)
    have ih' := ih (fun x hx => hend x (List.mem_cons_of_mem _ hx))
      (fun x hx => hcat x (List.mem_cons_of_mem _ hx))
      (fun x hx => hctx x (List.mem_cons_of_mem _ hx))
    by_cases hrun : isRun l = true
    · have hc : isCtxLine l = false := by
        cases hcl : isCtxLine l
        · rfl
        · have := (hctx l (List.mem_cons_self _ _) hcl).1
          rw [this] at hrun
          exact absurd hrun (by simp)
      constructor
      · intro n
        have hscan : scanRuns isRun isSkip (l :: r) n none =
            scanRuns isRun isSkip r (n + 1) (some n) := by
          simp [scanRuns, hendl, hrun]
        rw [hscan, ih'.2 (n + 1) n, specRuns_seg isRun r n hc,
          segK_cons_run isRun r hc hrun, segRest_cons r hc, if_pos (Nat.succ_pos _)]
        have harith : n + (segK isRun r + 1) = n + 1 + segK isRun r := by omega
        rw [harith]
        rfl
      · intro n s
        have hscan : scanRuns isRun isSkip (l :: r) n (some s) =
            scanRuns isRun isSkip r (n + 1) (some s) := by
          simp [scanRuns, hendl, hrun]
        rw [hscan, ih'.2 (n + 1) s, segK_cons_run isRun r hc hrun, segRest_cons r hc]
        have harith : n + (segK isRun r + 1) = n + 1 + segK isRun r := by omega
        rw [harith]
    · by_cases hskip : isSkip l = true
      · have hc : isCtxLine l = false := by
          cases hcl : isCtxLine l
          · rfl
          · have := (hctx l (List.mem_cons_self _ _) hcl).2
            rw [this] at hskip
            exact absurd hskip (by simp)
        have hrun' : isRun l = false := Bool.eq_false_iff.mpr hrun
        constructor
        · intro n
          have hscan : scanRuns isRun isSkip (l :: r) n none =
              scanRuns isRun isSkip r n none := by
            simp [scanRuns, hendl, hrun', hskip]
          rw [hscan, ih'.1 n, specRuns_skip_cons isRun r hc hrun' n]
        · intro n s
          have hscan : scanRuns isRun isSkip (l :: r) n (some s) =
              scanRuns isRun isSkip r n (some s) := by
            simp [scanRuns, hendl, hrun', hskip]
          rw [hscan, ih'.2 n s, segK_cons_norun isRun r hc hrun', segRest_cons r hc]
      · have hcl : isCtxLine l = true := by
          rcases hcat l (List.mem_cons_self _ _) with h | h | h
          · exact absurd h hrun
          · exact absurd h hskip
          · exact h
        have hrun' : isRun l = false := (hctx l (List.mem_cons_self _ _) hcl).1
        have hskip' : isSkip l = false := (hctx l (List.mem_cons_self _ _) hcl).2
        constructor
        · intro n
          have hscan : scanRuns isRun isSkip (l :: r) n none =
              scanRuns isRun isSkip r (n + 1) none := by
            simp [scanRuns, hendl, hrun', hskip', hcl]
          rw [hscan, ih'.1 (n + 1), specRuns_ctx isRun r n hcl]
        · intro n s
          have hscan : scanRuns isRun isSkip (l :: r) n (some s) =
              (s, n - 1) :: scanRuns isRun isSkip r (n + 1) none := by
            simp [scanRuns, hendl, hrun', hskip', hcl]
          rw [hscan, ih'.1 (n + 1), segK_ctx isRun r hcl, segRest_ctx r hcl]
          simp only [Nat.add_zero]
          rw [specRuns_ctx isRun r n hcl]

/-- Every range the inner scan emits is valid (`start ≤ end`). -/
theorem scanRuns_valid (isRun isSkip : String → Bool) :
    ∀ (body : List String) (n : Nat) (rs : Option Nat),
      (∀ s, rs = some s → s < n) →
      ∀ r ∈ scanRuns isRun isSkip body n rs, r.1 ≤ r.2 := by
  intro body
  induction body with
  | nil =>
    intro n rs hrs r hr
    cases rs with
    | none => simp [scanRuns] at hr
    | some s =>
      simp [scanRuns] at hr
      have := hrs s rfl
      rw [hr]
      simp only
      omega
  | cons l rest ih =>
    intro n rs hrs r hr
    cases rs with
    | none =>
      simp only [scanRuns] at hr
      split_ifs at hr with h1 h2 h3 h4
      · simp at hr
      · exact ih (n + 1) (some n) (fun s hs => by cases hs; omega) r hr
      · exact ih n none (fun s hs => by cases hs) r hr
      · exact ih (n + 1) none (fun s hs => by cases hs) r hr
      · exact ih n none (fun s hs => by cases hs) r hr
    | some s =>
      have hsn := hrs s rfl
      simp only [scanRuns] at hr
      split_ifs at hr with h1 h2 h3 h4
      · simp at hr
        rw [hr]
        simp only
        omega
      · exact ih (n + 1) (some s) (fun s' hs' => by cases hs'; omega) r hr
      · exact ih n (some s) (fun s' hs' => by cases hs'; omega) r hr
      · rcases List.mem_cons.mp hr with heq | hr'
        · rw [heq]
          simp only
          omega
        · exact ih (n + 1) none (fun s' hs' => by cases hs') r hr'
      · exact ih n (some s) (fun s' hs' => by cases hs'; omega) r hr

/-- Every range the outer hunk walk emits is valid. -/
theorem parseHunksGo_valid (d : Bool) :
    ∀ (lines : List String) (cf : Option String),
      ∀ p ∈ parseHunksGo d cf lines, p.2.1 ≤ p.2.2 := by
  intro lines
  induction lines with
  | nil => intro cf p hp; simp [parseHunksGo] at hp
  | cons l rest ih =>
    intro cf p hp
    by_cases h1 : strStarts "+++" l = true
    · cases hpf : parsePlusFileHeader l with
      | some f =>
        rw [show parseHunksGo d cf (l :: rest) = parseHunksGo d (some f) rest from by
          simp [parseHunksGo, h1, hpf]] at hp
        exact ih (some f) p hp
      | none =>
        rw [show parseHunksGo d cf (l :: rest) = parseHunksGo d cf rest from by
          simp [parseHunksGo, h1, hpf]] at hp
        exact ih cf p hp
    · by_cases h2 : strStarts "@@" l = true
      · cases cf with
        | none =>
          rw [show parseHunksGo d none (l :: rest) = parseHunksGo d none rest from by
            simp [parseHunksGo, h1, h2]] at hp
          exact ih none p hp
        | some f =>
          cases hph : parseHunkHeader l with
          | none =>
            rw [show parseHunksGo d (some f) (l :: rest) = parseHunksGo d (some f) rest from by
              simp [parseHunksGo, h1, h2, hph]] at hp
            exact ih (some f) p hp
          | some starts =>
            rw [show parseHunksGo d (some f) (l :: rest) =
                (if d then
                    (scanRuns isMinusLine isPlusLine rest starts.1 none).map (fun r => (f, r))
                  else
                    (scanRuns isPlusLine isMinusLine rest starts.2 none).map (fun r => (f, r)))
                  ++ parseHunksGo d (some f) rest from by
              simp [parseHunksGo, h1, h2, hph]] at hp
            rcases List.mem_append.mp hp with hp' | hp'
            · by_cases hd : d = true
              · rw [if_pos hd] at hp'
                obtain ⟨r, hr, heq⟩ := List.mem_map.mp hp'
                rw [← heq]
                exact scanRuns_valid _ _ rest starts.1 none (fun s hs => by cases hs) r hr
              · rw [if_neg hd] at hp'
                obtain ⟨r, hr, heq⟩ := List.mem_map.mp hp'
                rw [← heq]
                exact scanRuns_valid _ _ rest starts.2 none (fun s hs => by cases hs) r hr
            · exact ih (some f) p hp'
      · rw [show parseHunksGo d cf (l :: rest) = parseHunksGo d cf rest from by
          simp [parseHunksGo, h1, h2]] at hp
        exact ih cf p hp

/-- With no `+++ b/…` header anywhere, no current file is ever set and
nothing is emitted. -/
theorem parseHunksGo_no_plus (d : Bool) :
    ∀ lines : List String, (∀ l ∈ lines, strStarts "+++" l = false) →
      parseHunksGo d none lines = [] := by
  intro lines
  induction lines with
  | nil => intro _; rfl
  | cons l rest ih =>
    intro h
    have hl := h l (List.mem_cons_self _ _)
    rw [show parseHunksGo d none (l :: rest) = parseHunksGo d none rest from by
      simp [parseHunksGo, hl, ite_self]]
    exact ih (fun x hx => h x (List.mem_cons_of_mem _ hx))

/-- With no `@@` header anywhere, nothing is emitted. -/
theorem parseHunksGo_no_hunk (d : Bool) :
    ∀ lines : List String, ∀ cf : Option String,
      (∀ l ∈ lines, strStarts "@@" l = false) →
      parseHunksGo d cf lines = [] := by
  intro lines
  induction lines with
  | nil => intro _ _; rfl
  | cons l rest ih =>
    intro cf h
    have hl := h l (List.mem_cons_self _ _)
    have htail := fun x hx => h x (List.mem_cons_of_mem l hx)
    by_cases hp : strStarts "+++" l = true
    · cases hpf : parsePlusFileHeader l with
      | some f =>
        rw [show parseHunksGo d cf (l :: rest) = parseHunksGo d (some f) rest from by
          simp [parseHunksGo, hp, hpf]]
        exact ih (some f) htail
      | none =>
        rw [show parseHunksGo d cf (l :: rest) = parseHunksGo d cf rest from by
          simp [parseHunksGo, hp, hpf]]
        exact ih cf htail
    · rw [show parseHunksGo d cf (l :: rest) = parseHunksGo d cf rest from by
        simp [parseHunksGo, hp, hl]]
      exact ih cf htail

/-- C6: on hunk bodies made of `+`/`-`/context lines, additions mode emits
exactly the spec's contiguous `+`-runs in new-file coordinates (closed by
context lines or the hunk boundary) and deletions-only mode does the
symmetric thing for `-`-runs in old-file coordinates; each per-file range
list returned by `parse_diff_lines` is merged (pairwise disjoint and
non-adjacent); a patch with no `+++` or no `@@` structure yields no
ranges; and the concrete hunk `@@ -1,3 +1,4 @@\n a\n+b\n c` against
`x.py` yields `{x.py: [(2,2)]}` in additions mode and `{}` in
deletions-only mode. -/
theorem parse_diff_lines_spec :
    (∀ (body : List String) (n : Nat),
        (∀ l ∈ body, isPlusLine l = true ∨ isMinusLine l = true ∨ isCtxLine l = true) →
        scanRuns isPlusLine isMinusLine body n none = specRuns isPlusLine body n)
    ∧ (∀ (body : List String) (n : Nat),
        (∀ l ∈ body, isPlusLine l = true ∨ isMinusLine l = true ∨ isCtxLine l = true) →
        scanRuns isMinusLine isPlusLine body n none = specRuns isMinusLine body n)
    ∧ (∀ (text : String) (d : Bool),
        ((∀ l ∈ splitLines text, strStarts "+++" l = false) ∨
          (∀ l ∈ splitLines text, strStarts "@@" l = false)) →
        parse_diff_lines text d = [])
    ∧ (∀ (text : String) (d : Bool) (f : String) (rs : List (Nat × Nat)),
        (f, rs) ∈ parse_diff_lines text d →
        List.Pairwise (fun x y : Nat × Nat => x.2 + 1 < y.1) rs)
    ∧ parse_diff_lines exampleDiff false = [("x.py", [(2, 2)])]
    ∧ parse_diff_lines exampleDiff true = [] := by
  refine ⟨?_, ?_, ?_, ?_, by decide, by decide⟩
  · intro body n hcat
    refine (scanRuns_eq_specRuns isPlusLine isMinusLine body ?_ hcat ?_).1 n
    · intro l hl
      rcases hcat l hl with h | h | h
      · exact isPlusLine_not_end h
      · exact isMinusLine_not_end h
      · exact isCtxLine_not_end h
    · intro l _ hl
      exact isCtxLine_not_run hl
  · intro body n hcat
    refine (scanRuns_eq_specRuns isMinusLine isPlusLine body ?_ ?_ ?_).1 n
    · intro l hl
      rcases hcat l hl with h | h | h
      · exact isPlusLine_not_end h
      · exact isMinusLine_not_end h
      · exact isCtxLine_not_end h
    · intro l hl
      rcases hcat l hl with h | h | h
      · exact Or.inr (Or.inl h)
      · exact Or.inl h
      · exact Or.inr (Or.inr h)
    · intro l _ hl
      exact ⟨(isCtxLine_not_run hl).2, (isCtxLine_not_run hl).1⟩
  · intro text d h
    unfold parse_diff_lines
    have hempty : parseHunksGo d none (splitLines text) = [] := by
      rcases h with h | h
      · exact parseHunksGo_no_plus d _ h
      · exact parseHunksGo_no_hunk d _ none h
    rw [hempty]
    rfl
  · intro text d f rs hmem
    unfold parse_diff_lines at hmem
    obtain ⟨f', _, hg⟩ := List.mem_filterMap.mp hmem
    by_cases hivs :
        ((parseHunksGo d none (splitLines text)).filterMap
          (fun p => if p.1 = f' then some p.2 else none)).isEmpty = true
    · rw [if_pos hivs] at hg
      cases hg
    · rw [if_neg hivs] at hg
      injection hg with hg'
      injection hg' with hgf hgr
      have hvalid : ∀ iv ∈ (parseHunksGo d none (splitLines text)).filterMap
          (fun p => if p.1 = f' then some p.2 else none), validIv iv := by
        intro iv hiv
        obtain ⟨p, hp, hpe⟩ := List.mem_filterMap.mp hiv
        by_cases hpf : p.1 = f'
        · rw [if_pos hpf] at hpe
          injection hpe with hpe'
          rw [← hpe']
          exact parseHunksGo_valid d _ none p hp
        · rw [if_neg hpf] at hpe
          cases hpe
      rw [← hgr]
      exact chain'_gapped_pairwise (merge_sorted_valid hvalid).1 (merge_sorted_valid hvalid).2

/-- Witness for C6's universally quantified conjunct at the concrete hunk
body of the example. -/
theorem parse_diff_lines_spec_witness :
    (∀ l ∈ [" a", "+b", " c"],
        isPlusLine l = true ∨ isMinusLine l = true ∨ isCtxLine l = true)
    ∧ scanRuns isPlusLine isMinusLine [" a", "+b", " c"] 1 none =
        specRuns isPlusLine [" a", "+b", " c"] 1 :=
  ⟨by decide, parse_diff_lines_spec.1 [" a", "+b", " c"] 1 (by decide)⟩

/-- C3: in edit-localization scoring, recall and precision are always
equal: both are `hits / totalPredictedDeletedLines` (as exact rationals),
`0.0` when there are no predicted deleted lines; the denominator is the
number of predicted deleted lines extracted from the patch in old-file
coordinates, and `hits` counts exactly those predicted deleted lines that
fall inside some gold initial-context line range of the same file. -/
theorem editloc_spec (patch : String)
    (gold : List (String × List (Nat × Nat))) :
    (computeEditLoc patch gold).«recall» = (computeEditLoc patch gold).precision
    ∧ (computeEditLoc patch gold).«recall» =
        (if 0 < (computeEditLoc patch gold).pred_size then
          ((computeEditLoc patch gold).intersection : ℚ) /
            (computeEditLoc patch gold).pred_size
        else 0)
    ∧ (computeEditLoc patch gold).pred_size =
        (predLines (parse_diff_lines patch true)).length
    ∧ (computeEditLoc patch gold).intersection =
        (predLines (parse_diff_lines patch true)).countP
          (fun p => decide (∃ g ∈ lookupRanges gold p.1, g.1 ≤ p.2 ∧ p.2 ≤ g.2)) := by
  refine ⟨rfl, rfl, rfl, ?_⟩
  show ((predLines (parse_diff_lines patch true)).filter
      (fun p => inGold gold p.1 p.2)).length = _
  rw [← List.countP_eq_length_filter]
  refine List.countP_congr ?_
  intro p _
  unfold inGold
  rw [List.any_eq_true, decide_eq_true_eq]
  constructor
  · rintro ⟨g, hg, hgln⟩
    rw [Bool.and_eq_true, decide_eq_true_eq, decide_eq_true_eq] at hgln
    exact ⟨g, hg, hgln.1, hgln.2⟩
  · rintro ⟨g, hg, h1, h2⟩
    refine ⟨g, hg, ?_⟩
    rw [Bool.and_eq_true, decide_eq_true_eq, decide_eq_true_eq]
    exact ⟨h1, h2⟩

/-- C10: when the prediction carries no `model_patch` (missing or empty)
but the gold record's data has a non-empty `patch`, the editloc metrics
are computed from the gold patch; when the prediction has a non-empty
`model_patch` it is used; and the editloc section is omitted exactly when
both are missing or empty. -/
theorem editloc_fallback_spec (predModelPatch goldPatch : Option String)
    (spans : List (String × List (Nat × Nat))) :
    (orEmpty predModelPatch = "" → orEmpty goldPatch ≠ "" →
      editlocSection predModelPatch goldPatch spans =
        some (computeEditLoc (orEmpty goldPatch) spans))
    ∧ (orEmpty predModelPatch ≠ "" →
      editlocSection predModelPatch goldPatch spans =
        some (computeEditLoc (orEmpty predModelPatch) spans))
    ∧ (editlocSection predModelPatch goldPatch spans = none ↔
        orEmpty predModelPatch = "" ∧ orEmpty goldPatch = "") := by
  refine ⟨?_, ?_, ?_⟩
  · intro hp hg
    simp only [editlocSection]
    rw [if_pos hp, if_neg hg]
  · intro hp
    simp only [editlocSection]
    rw [if_neg hp, if_neg hp]
  · simp only [editlocSection]
    by_cases hp : orEmpty predModelPatch = ""
    · rw [if_pos hp]
      by_cases hg : orEmpty goldPatch = ""
      · rw [if_pos hg]
        simp [hp, hg]
      · rw [if_neg hg]
        simp [hp, hg]
    · rw [if_neg hp, if_neg hp]
      simp [hp]

/-- Witness for C10 at a concrete empty prediction patch and non-empty
gold patch. -/
theorem editloc_fallback_spec_witness :
    (orEmpty (some "") = "" ∧ orEmpty (some exampleDiff) ≠ "") ∧
    editlocSection (some "") (some exampleDiff) [] =
      some (computeEditLoc (orEmpty (some exampleDiff)) []) :=
  ⟨⟨rfl, by decide⟩,
    (editloc_fallback_spec (some "") (some exampleDiff) []).1 rfl (by decide)⟩

/-! ## Properties of the trajectory metrics -/

theorem prefixUnionFiles_snoc_lt {l : List StepRep} (s : StepRep) {t : Nat}
    (h : t ≤ l.length) : prefixUnionFiles (l ++ [s]) t = prefixUnionFiles l t := by
  unfold prefixUnionFiles
  rw [List.take_append_of_le_length h]

theorem prefixUnionSymbols_snoc_lt {l : List StepRep} (s : StepRep) {t : Nat}
    (h : t ≤ l.length) : prefixUnionSymbols (l ++ [s]) t = prefixUnionSymbols l t := by
  unfold prefixUnionSymbols
  rw [List.take_append_of_le_length h]

theorem prefixUnionSpans_snoc_lt {l : List StepRep} (s : StepRep) {t : Nat}
    (h : t ≤ l.length) : prefixUnionSpans (l ++ [s]) t = prefixUnionSpans l t := by
  unfold prefixUnionSpans
  rw [List.take_append_of_le_length h]

theorem prefixUnionFiles_snoc_full (l : List StepRep) (s : StepRep) :
    prefixUnionFiles (l ++ [s]) (l.length + 1) =
      prefixUnionFiles l l.length ∪ s.files := by
  unfold prefixUnionFiles
  rw [show l.length + 1 = (l ++ [s]).length by simp, List.take_length,
    List.take_length, List.foldl_append]
  rfl

theorem prefixUnionSymbols_snoc_full (l : List StepRep) (s : StepRep) :
    prefixUnionSymbols (l ++ [s]) (l.length + 1) =
      prefixUnionSymbols l l.length ∪ s.symbols := by
  unfold prefixUnionSymbols
  rw [show l.length + 1 = (l ++ [s]).length by simp, List.take_length,
    List.take_length, List.foldl_append]
  rfl

theorem prefixUnionSpans_snoc_full (l : List StepRep) (s : StepRep) :
    prefixUnionSpans (l ++ [s]) (l.length + 1) =
      unionSpansStep (prefixUnionSpans l l.length) s.spans := by
  unfold prefixUnionSpans
  rw [show l.length + 1 = (l ++ [s]).length by simp, List.take_length,
    List.take_length, List.foldl_append]
  rfl

theorem stepCoverage_snoc_lt (gf : Finset String) (gs : Finset DefKey)
    (gsp : SpanMap) {l : List StepRep} (s : StepRep) {t : Nat} (h : t ≤ l.length) :
    stepCoverage gf gs gsp (l ++ [s]) t = stepCoverage gf gs gsp l t := by
  unfold stepCoverage
  rw [prefixUnionFiles_snoc_lt s h, prefixUnionSymbols_snoc_lt s h,
    prefixUnionSpans_snoc_lt s h]

/-- Closed form of the loop state of `compute_trajectory_metrics` after
all steps: the running unions are the unions over all steps, the sums are
the summed per-step sizes, and the recorded per-step coverages are the
coverages of the prefix unions. -/
theorem foldl_trajStep_closed (gf : Finset String) (gs : Finset DefKey)
    (gsp : SpanMap) (steps : List StepRep) :
    steps.foldl (trajStep gf gs gsp) trajInit =
      ⟨prefixUnionFiles steps steps.length,
       prefixUnionSymbols steps steps.length,
       prefixUnionSpans steps steps.length,
       (steps.map (fun s => s.files.card)).sum,
       (steps.map (fun s => s.symbols.card)).sum,
       (steps.map (fun s => span_total_bytes s.spans)).sum,
       (List.range steps.length).map (fun i => stepCoverage gf gs gsp steps (i + 1))⟩ := by
  induction steps using List.reverseRecOn with
  | nil => rfl
  | append_singleton l s ih =>
    rw [List.foldl_append, ih]
    show trajStep gf gs gsp _ s = _
    simp only [trajStep, TrajState.mk.injEq]
    refine ⟨?_, ?_, ?_, ?_, ?_, ?_, ?_⟩
    · rw [show (l ++ [s]).length = l.length + 1 from by simp,
        prefixUnionFiles_snoc_full]
    · rw [show (l ++ [s]).length = l.length + 1 from by simp,
        prefixUnionSymbols_snoc_full]
    · rw [show (l ++ [s]).length = l.length + 1 from by simp,
        prefixUnionSpans_snoc_full]
    · simp
    · simp
    · simp
    · rw [show (l ++ [s]).length = l.length + 1 by simp, List.range_succ,
        List.map_append]
      congr 1
      · refine List.map_congr_left ?_
        intro i hi
        exact (stepCoverage_snoc_lt gf gs gsp s
          (by have := List.mem_range.mp hi; omega)).symm
      · simp only [List.map_cons, List.map_nil, List.cons.injEq, and_true]
        unfold stepCoverage
        rw [prefixUnionFiles_snoc_full, prefixUnionSymbols_snoc_full,
          prefixUnionSpans_snoc_full]

/-- C4: AUC-coverage per granularity is the arithmetic mean over the `T`
steps of the coverage of the running union (files / symbols / merged byte
spans up to that step) against the gold; zero steps give zero AUC and
zero redundancy at all three granularities; three full-coverage steps
give `aucFile = 1`; coverage pattern (0, 0, 100%) over three steps gives
`aucFile = 1/3`. -/
theorem auc_coverage_spec (steps : List StepRep) (gf : Finset String)
    (gs : Finset DefKey) (gsp : SpanMap) (hne : steps ≠ []) :
    ((compute_trajectory_metrics steps gf gs gsp).aucFile =
        ((List.range steps.length).map
          (fun i => (stepCoverage gf gs gsp steps (i + 1)).1)).sum / steps.length
      ∧ (compute_trajectory_metrics steps gf gs gsp).aucSymbol =
        ((List.range steps.length).map
          (fun i => (stepCoverage gf gs gsp steps (i + 1)).2.1)).sum / steps.length
      ∧ (compute_trajectory_metrics steps gf gs gsp).aucSpan =
        ((List.range steps.length).map
          (fun i => (stepCoverage gf gs gsp steps (i + 1)).2.2)).sum / steps.length)
    ∧ compute_trajectory_metrics [] gf gs gsp = ⟨[], 0, 0, 0, 0, 0, 0⟩
    ∧ (compute_trajectory_metrics
        [⟨{"a.py"}, ∅, []⟩, ⟨{"a.py"}, ∅, []⟩, ⟨{"a.py"}, ∅, []⟩]
        {"a.py"} ∅ []).aucFile = 1
    ∧ (compute_trajectory_metrics
        [⟨∅, ∅, []⟩, ⟨∅, ∅, []⟩, ⟨{"a.py"}, ∅, []⟩] {"a.py"} ∅ []).aucFile = 1 / 3 := by
  refine ⟨?_, rfl, ?_, ?_⟩
  · rw [compute_trajectory_metrics, if_neg hne, foldl_trajStep_closed]
    simp only [List.map_map]
    exact ⟨rfl, rfl, rfl⟩
  · rw [compute_trajectory_metrics, if_neg (by simp)]
    norm_num [List.foldl, trajStep, trajInit, span_total_bytes, unionSpansStep,
      Finset.union_self, Finset.empty_union, Finset.inter_self]
  · rw [compute_trajectory_metrics, if_neg (by simp)]
    norm_num [List.foldl, trajStep, trajInit, span_total_bytes, unionSpansStep,
      Finset.union_self, Finset.empty_union, Finset.inter_self,
      Finset.empty_inter, Finset.union_empty]

/-- Witness for C4 at the concrete 3-step full-coverage trajectory. -/
theorem auc_coverage_spec_witness :
    ([⟨({"a.py"} : Finset String), (∅ : Finset DefKey), ([] : SpanMap)⟩,
        ⟨{"a.py"}, ∅, []⟩, ⟨{"a.py"}, ∅, []⟩] ≠ ([] : List StepRep))
    ∧ (compute_trajectory_metrics
        [⟨{"a.py"}, ∅, []⟩, ⟨{"a.py"}, ∅, []⟩, ⟨{"a.py"}, ∅, []⟩]
        {"a.py"} ∅ []).aucFile =
      ((List.range ([⟨({"a.py"} : Finset String), (∅ : Finset DefKey), ([] : SpanMap)⟩,
          ⟨{"a.py"}, ∅, []⟩, ⟨{"a.py"}, ∅, []⟩] : List StepRep).length).map
        (fun i => (stepCoverage {"a.py"} ∅ []
          [⟨{"a.py"}, ∅, []⟩, ⟨{"a.py"}, ∅, []⟩, ⟨{"a.py"}, ∅, []⟩] (i + 1)).1)).sum /
        ([⟨({"a.py"} : Finset String), (∅ : Finset DefKey), ([] : SpanMap)⟩,
          ⟨{"a.py"}, ∅, []⟩, ⟨{"a.py"}, ∅, []⟩] : List StepRep).length :=
  ⟨by simp,
    (auc_coverage_spec [⟨{"a.py"}, ∅, []⟩, ⟨{"a.py"}, ∅, []⟩, ⟨{"a.py"}, ∅, []⟩]
      {"a.py"} ∅ [] (by simp)).1.1⟩

/-- C5: for a non-empty trajectory, redundancy per granularity equals
`1 - |final union| / Σ|step size|` (bytes measured after merging for the
span granularity, since `span_total_bytes` merges before summing), is
`0.0` when the summed step size is zero, and equals `1 - 1/3` for three
steps each reporting the same single file. -/
theorem redundancy_spec (steps : List StepRep) (gf : Finset String)
    (gs : Finset DefKey) (gsp : SpanMap) (hne : steps ≠ []) :
    ((compute_trajectory_metrics steps gf gs gsp).redFile =
        (if 0 < (steps.map (fun s => s.files.card)).sum then
          1 - ((prefixUnionFiles steps steps.length).card : ℚ) /
            (steps.map (fun s => s.files.card)).sum
        else 0)
      ∧ (compute_trajectory_metrics steps gf gs gsp).redSymbol =
        (if 0 < (steps.map (fun s => s.symbols.card)).sum then
          1 - ((prefixUnionSymbols steps steps.length).card : ℚ) /
            (steps.map (fun s => s.symbols.card)).sum
        else 0)
      ∧ (compute_trajectory_metrics steps gf gs gsp).redSpan =
        (if 0 < (steps.map (fun s => span_total_bytes s.spans)).sum then
          1 - (span_total_bytes (prefixUnionSpans steps steps.length) : ℚ) /
            (steps.map (fun s => span_total_bytes s.spans)).sum
        else 0))
    ∧ (compute_trajectory_metrics
        [⟨{"a.py"}, ∅, []⟩, ⟨{"a.py"}, ∅, []⟩, ⟨{"a.py"}, ∅, []⟩]
        {"a.py"} ∅ []).redFile = 1 - 1 / 3 := by
  refine ⟨?_, ?_⟩
  · rw [compute_trajectory_metrics, if_neg hne, foldl_trajStep_closed]
    exact ⟨rfl, rfl, rfl⟩
  · rw [compute_trajectory_metrics, if_neg (by simp)]
    norm_num [List.foldl, trajStep, trajInit, span_total_bytes, unionSpansStep,
      Finset.union_self, Finset.empty_union, Finset.inter_self]

/-- Witness for C5 at the concrete three-identical-steps trajectory. -/
theorem redundancy_spec_witness :
    ([⟨({"a.py"} : Finset String), (∅ : Finset DefKey), ([] : SpanMap)⟩,
        ⟨{"a.py"}, ∅, []⟩, ⟨{"a.py"}, ∅, []⟩] ≠ ([] : List StepRep))
    ∧ (compute_trajectory_metrics
        [⟨{"a.py"}, ∅, []⟩, ⟨{"a.py"}, ∅, []⟩, ⟨{"a.py"}, ∅, []⟩]
        {"a.py"} ∅ []).redFile = 1 - 1 / 3 :=
  ⟨by simp,
    (redundancy_spec [⟨{"a.py"}, ∅, []⟩, ⟨{"a.py"}, ∅, []⟩, ⟨{"a.py"}, ∅, []⟩]
      {"a.py"} ∅ [] (by simp)).2⟩

/-! ## Properties of symbol-name matching and availability -/

/-- C8: for each supplied name (stripped), the extractor tries an exact
match against the file's extracted definition names first; only when the
name contains a dot does it then try the trailing component after the
last dot; the first matching candidate wins and stops the search; names
matching no definition contribute nothing (and the matcher is a total
function, so no error is raised); the per-file output is exactly the
union of the per-name contributions. -/
theorem extract_def_set_from_symbol_names_spec (namedDefs : List NamedDef)
    (raw : String) :
    (pyStrip raw ≠ "" → defsFor namedDefs (pyStrip raw) ≠ [] →
        symbolMatches namedDefs raw = defsFor namedDefs (pyStrip raw))
    ∧ (pyStrip raw ≠ "" → defsFor namedDefs (pyStrip raw) = [] →
        (pyStrip raw).data.contains '.' = true →
        symbolMatches namedDefs raw = defsFor namedDefs (lastComponent (pyStrip raw)))
    ∧ (pyStrip raw ≠ "" → defsFor namedDefs (pyStrip raw) = [] →
        ((pyStrip raw).data.contains '.' = false ∨
          defsFor namedDefs (lastComponent (pyStrip raw)) = []) →
        symbolMatches namedDefs raw = [])
    ∧ (∀ (relPath : String) (symbols : List String) (d : String × String × Nat × Nat),
        d ∈ extract_def_set_from_symbol_names_file relPath namedDefs symbols ↔
          ∃ r ∈ symbols, ∃ dd ∈ symbolMatches namedDefs r,
            d = (relPath, dd.1, dd.2.1, dd.2.2)) := by
  refine ⟨?_, ?_, ?_, ?_⟩
  · intro h1 h2
    unfold symbolMatches
    rw [if_neg h1, List.singleton_append]
    unfold firstMatch
    simp only
    rw [if_neg (by simpa using h2)]
  · intro h1 h2 h3
    unfold symbolMatches
    rw [if_neg h1, h3, if_pos rfl, List.singleton_append]
    unfold firstMatch
    simp only
    rw [if_pos (by simpa using h2)]
    unfold firstMatch
    simp only
    by_cases h4 : (defsFor namedDefs (lastComponent (pyStrip raw))).isEmpty = true
    · rw [if_pos h4]
      have h5 : defsFor namedDefs (lastComponent (pyStrip raw)) = [] := by
        simpa using h4
      rw [h5]
      rfl
    · rw [if_neg h4]
  · intro h1 h2 h3
    unfold symbolMatches
    rw [if_neg h1]
    rcases h3 with h3 | h3
    · rw [h3, if_neg (by simp), List.append_nil]
      unfold firstMatch
      simp only
      rw [if_pos (by simpa using h2)]
      rfl
    · by_cases hdot : (pyStrip raw).data.contains '.' = true
      · rw [hdot, if_pos rfl, List.singleton_append]
        unfold firstMatch
        simp only
        rw [if_pos (by simpa using h2)]
        unfold firstMatch
        simp only
        rw [if_pos (by simpa using h3)]
        rfl
      · rw [Bool.eq_false_iff.mpr hdot, if_neg (by simp), List.append_nil]
        unfold firstMatch
        simp only
        rw [if_pos (by simpa using h2)]
        rfl
  · intro relPath symbols d
    unfold extract_def_set_from_symbol_names_file
    rw [List.mem_flatMap]
    constructor
    · rintro ⟨r, hr, hd⟩
      obtain ⟨dd, hdd, heq⟩ := List.mem_map.mp hd
      exact ⟨r, hr, dd, hdd, heq.symm⟩
    · rintro ⟨r, hr, dd, hdd, heq⟩
      exact ⟨r, hr, List.mem_map.mpr ⟨dd, hdd, heq.symm⟩⟩

/-- Witness for C8: `"Bar.foo"` does not match exactly, so its trailing
component `"foo"` is used. -/
theorem extract_def_set_from_symbol_names_spec_witness :
    (pyStrip "Bar.foo" ≠ "" ∧ defsFor [("function_definition", "foo", 10, 50)]
        (pyStrip "Bar.foo") = []
      ∧ (pyStrip "Bar.foo").data.contains '.' = true)
    ∧ symbolMatches [("function_definition", "foo", 10, 50)] "Bar.foo" =
        defsFor [("function_definition", "foo", 10, 50)]
          (lastComponent (pyStrip "Bar.foo")) :=
  ⟨⟨by decide, by decide, by decide⟩,
    (extract_def_set_from_symbol_names_spec
      [("function_definition", "foo", 10, 50)] "Bar.foo").2.1
      (by decide) (by decide) (by decide)⟩

/-- C9: the availability check returns `false` exactly when neither the
tree-sitter backend nor the always-initializable regex fallback can be
initialized — which never happens, so it always returns `true`; and were
the check ever to return `false`, `main` would exit with code 1, distinct
from success. -/
theorem available_spec (tsAvailable : Bool) :
    (available = false ↔ tsAvailable = false ∧ fallback_available = false)
    ∧ (∀ a : Bool, a = false → main_exit_gate a = 1 ∧ main_exit_gate a ≠ 0) := by
  constructor
  · simp [available, fallback_available]
  · intro a ha
    subst ha
    exact ⟨rfl, by decide⟩

/-- Witness for C9 at `tsAvailable = false` and a failed check. -/
theorem available_spec_witness :
    ((available = false ↔ false = false ∧ fallback_available = false)
      ∧ (main_exit_gate false = 1 ∧ main_exit_gate false ≠ 0)) :=
  ⟨(available_spec false).1, (available_spec false).2 false rfl⟩

end ContextBench
